import Mathlib

/-!
Shallow embedding of the data pipeline of `daima.py` (a stock digitalization
index lookup tool): the loader and normalizer `load_data`, the query engine
`search_data`, the caller guard in `main`, and the summarizer
`display_results`. Strings are modelled on `List Char`; pandas cells that can
be missing (NaN) are modelled with `Option`; the numeric index column is
modelled with `ℚ`.
-/

namespace Daima

/-- Model of Python `str.strip()` on a character list: drop ASCII whitespace
from both ends (Lean `Char.isWhitespace` covers the space, tab, CR and LF
characters; the wider Unicode whitespace of Python is not exercised by the
dataset). -/
def pyStripList (l : List Char) : List Char :=
  ((l.dropWhile Char.isWhitespace).reverse.dropWhile Char.isWhitespace).reverse

/-- Model of Python `str.strip()`. -/
def pyStrip (s : String) : String :=
  String.mk (pyStripList s.data)

/-- Left-pad a character list with the zero digit up to width `w` (no-op when
the list is already at least `w` long, by Nat subtraction). -/
def padZeros (w : Nat) (l : List Char) : List Char :=
  List.replicate (w - l.length) '0' ++ l

/-- Model of Python `str.zfill(w)` on the character list: return the list
unchanged when `w` is at most its length, otherwise left-fill with the zero
digit; a leading sign character is kept in front of the inserted padding.
Note zfill only pads: it never truncates a longer string and never alters
non-digit characters. -/
def pyZfillList (w : Nat) : List Char → List Char
  | [] => List.replicate w '0'
  | c :: rest =>
    if w ≤ rest.length + 1 then c :: rest
    else if c = '+' ∨ c = '-' then c :: padZeros (w - 1) rest
    else padZeros w (c :: rest)

/-- Model of Python `str.zfill(w)`. -/
def pyZfill (s : String) (w : Nat) : String :=
  String.mk (pyZfillList w s.data)

/-- Boolean test that `p` is a leading segment of `l`. -/
def listStartsWith : List Char → List Char → Bool
  | [], _ => true
  | _ :: _, [] => false
  | a :: as, b :: bs => a == b && listStartsWith as bs

/-- Boolean test that `pat` occurs contiguously somewhere inside `l`. -/
def hasInfixList (pat : List Char) : List Char → Bool
  | [] => pat.isEmpty
  | c :: rest => listStartsWith pat (c :: rest) || hasInfixList pat rest

/-- Model of the pandas `Series.str.contains(pat)` cell test for patterns
without regular-expression metacharacters (the intended digit and name inputs
of this program), where it coincides with plain substring containment. -/
def strContains (s pat : String) : Bool :=
  hasInfixList pat.data s.data

/-- Proposition form of substring containment, used to state claims. -/
def IsSubstring (pat s : String) : Prop :=
  ∃ pre post, s.data = pre ++ pat.data ++ post

/-- Computable floor of a rational: floor division of numerator by the
(positive) denominator. -/
def ratFloor (q : ℚ) : ℤ :=
  q.num.fdiv q.den

/-- Round a rational to the nearest integer, ties to the even integer: the
rounding rule of numpy rounding used by `Series.round`. -/
def roundHalfEven (q : ℚ) : ℤ :=
  if q - ratFloor q < 1/2 then ratFloor q
  else if (1:ℚ)/2 < q - ratFloor q then ratFloor q + 1
  else if 2 ∣ ratFloor q then ratFloor q else ratFloor q + 1

/-- Model of `Series.round(2)` on an exact rational cell value. -/
def round2 (q : ℚ) : ℚ :=
  (roundHalfEven (q * 100) : ℚ) / 100

/-- Truncation toward zero, the float-to-int cast used by `astype(int)`:
Lean integer `div` truncates toward zero exactly as the C cast does. -/
def ratTrunc (q : ℚ) : ℤ :=
  q.num.tdiv q.den

/-- Model of Python `str.lower()`, applied character by character (the
per-character rule is what `Series.str.lower` applies to these cells). -/
def pyLower (s : String) : String :=
  String.mk (s.data.map Char.toLower)

/-- A raw cell of the parsed table: a string, an integer or a float (the float
case carries the exact rational value). -/
inductive PyVal where
  | s (v : String)
  | i (v : Int)
  | f (v : ℚ)
deriving DecidableEq

/-- Model of `astype(str)` on one cell. For the float case the exact rational
rendering stands in for the Python float repr; only the string and integer
cases are exercised by the code columns of this dataset. -/
def pyStr : PyVal → String
  | .s v => v
  | .i v => toString v
  | .f v => toString v

/-- All-digit run read as a decimal number; `none` on an empty run or any
non-digit character. -/
def digitsOf (l : List Char) : Option Nat :=
  if l = [] then none
  else if l.all Char.isDigit then
    some (l.foldl (fun acc c => acc * 10 + (c.toNat - ('0').toNat)) 0)
  else none

/-- Model of the Python `int(str)` conversion: surrounding whitespace is
stripped, one optional sign is allowed, then a non-empty run of digits;
anything else raises (`none`). -/
def pyParseInt (s : String) : Option Int :=
  match pyStripList s.data with
  | [] => none
  | c :: rest =>
    if c = '+' then (digitsOf rest).map (fun n => (n : Int))
    else if c = '-' then (digitsOf rest).map (fun n => -(n : Int))
    else (digitsOf (c :: rest)).map (fun n => (n : Int))

/-- Model of `astype(int)` on one cell: identity on integers, truncation
toward zero on floats, decimal parse on strings (`none` models the raised
coercion error on a non-numeric string). -/
def pyToInt : PyVal → Option Int
  | .i v => some v
  | .f v => some (ratTrunc v)
  | .s v => pyParseInt v

/-- Model of reading one cell as a numeric value for `Series.round(2)`:
a string cell makes the rounding of the column raise (`none`). -/
def pyToRat : PyVal → Option ℚ
  | .i v => some (v : ℚ)
  | .f v => some v
  | .s _ => none

/-- One raw row of the parsed table, with the four required columns
股票代码 / 企业名称 / 年份 / 数字化转型指数 present (the missing-column check of
`load_data` is upstream of the claims treated here). -/
structure RawRow where
  stock_code : PyVal
  entity_name : PyVal
  year : PyVal
  index_value : PyVal
deriving DecidableEq

/-- One normalized record of the Dataset produced by `load_data`
(lines 128-133 of daima.py). -/
structure Record where
  stock_code : String
  entity_name : String
  year : Int
  index_value : ℚ
deriving DecidableEq

/-- Per-row normalization of `load_data` lines 129-132: stringify and zero-pad
the code, stringify and strip the name, coerce the year to an integer, round
the index to two decimals. The column-wise pandas operations are independent
per row, so the row-wise composition is equivalent; failure of any cell
coercion is propagated by `cleanRows` to the whole load. -/
def cleanRow (r : RawRow) : Option Record :=
  match pyToInt r.year, pyToRat r.index_value with
  | some y, some iv =>
    some ⟨pyZfill (pyStr r.stock_code) 6, pyStrip (pyStr r.entity_name), y, round2 iv⟩
  | _, _ => none

/-- Normalize every row; any failing cell coercion fails the whole table,
matching the pandas behavior of `astype` and `round` raising on the whole
column inside the `try` of `load_data`. -/
def cleanRows : List RawRow → Option (List Record)
  | [] => some []
  | r :: rs =>
    match cleanRow r, cleanRows rs with
    | some rec, some recs => some (rec :: recs)
    | _, _ => none

/-- The year-range row filter of `load_data` line 133. -/
def yearOK (y : Int) : Bool :=
  decide (1999 ≤ y) && decide (y ≤ 2023)

/-- The cleaning stage of `load_data` (daima.py lines 128-133, wrapped in its
try/except lines 89 and 141-142): normalize all rows, then keep the rows whose
year lies in [1999, 2023]; any coercion failure aborts with the error result
of the except branch, returning no dataset at all. -/
def clean_data (rows : List RawRow) : Except String (List Record) :=
  match cleanRows rows with
  | none => Except.error "加载失败"
  | some recs => Except.ok (recs.filter (fun rec => yearOK rec.year))

/-- The fixed candidate encoding list of `load_data` line 103. -/
def csvEncodings : List String :=
  ["gbk", "gb2312", "utf-8-sig", "latin-1"]

/-- The retry loop of `load_data` lines 104-109: try each encoding in order,
keep the first whose parse returns a table. The abstract `decode` argument
models `pd.read_csv` at one encoding; `none` models any raised exception
(the bare `except` of line 108 catches every error, decoding or parsing). -/
def tryEncodings (decode : String → Option (List RawRow)) : List String → Option (List RawRow)
  | [] => none
  | e :: rest =>
    match decode e with
    | some t => some t
    | none => tryEncodings decode rest

/-- The CSV branch of `load_data` lines 102-111: first successful encoding
wins; if none parses, the tagged encoding error of line 111 is returned. -/
def load_csv (decode : String → Option (List RawRow)) : Except String (List RawRow) :=
  match tryEncodings decode csvEncodings with
  | some t => Except.ok t
  | none => Except.error "无法识别CSV编码，请用Excel另存为UTF-8格式"

/-- The full loader on a CSV file: decode then clean. -/
def load_data (decode : String → Option (List RawRow)) : Except String (List Record) :=
  (load_csv decode).bind clean_data

/-- One row of the frame handed to `search_data`. The two string columns are
optional: `none` models a missing (NaN) cell, which the engine treats via
`na=False`. The frames produced by `load_data` always carry `some` values. -/
structure Row where
  stock_code : Option String
  entity_name : Option String
  year : Int
  index_value : ℚ
deriving DecidableEq

/-- The two search modes of the radio widget: 股票代码 or 企业名称. -/
inductive SearchMode where
  | stockCode
  | entityName
deriving DecidableEq

/-- The year selector: 全部年份 or one concrete year. -/
inductive YearFilter where
  | allYears
  | year (y : Int)
deriving DecidableEq

/-- The text predicate of `search_data` lines 148-153: in stock-code mode the
input is stripped, zero-filled to 6 and tested for containment in the code
cell; in entity-name mode input and cell are lower-cased before the
containment test. A missing cell never matches (`na=False`). -/
def rowMatches (mode : SearchMode) (input : String) (r : Row) : Bool :=
  match mode with
  | .stockCode =>
    match r.stock_code with
    | none => false
    | some c => strContains c (pyZfill (pyStrip input) 6)
  | .entityName =>
    match r.entity_name with
    | none => false
    | some n => strContains (pyLower n) (pyLower (pyStrip input))

/-- Stable descending insertion by year: the new row goes after every already
placed row of greater or equal year. -/
def insertYearDesc (r : Row) : List Row → List Row
  | [] => [r]
  | x :: xs => if r.year ≤ x.year then x :: insertYearDesc r xs else r :: x :: xs

/-- Model of `sort_values(年份, ascending=False)` in line 158. The program
sorts with the default kind, numpy introsort: the descending order of the year
key is guaranteed, but the relative order of rows with equal year is NOT — the
pandas documentation names only mergesort/stable as stable kinds, and introsort
partition swaps reorder tied rows above its small-array cutoff. A function
model must still pick one concrete output, so this definition realizes one
admissible outcome (insertion by year). No theorem below relies on the tie
order this choice happens to produce: every property proved about a sorted
result is invariant under permuting tied rows (membership, multiset content,
year of members), so it holds for every admissible outcome of the program
sort. -/
def sortYearDesc (l : List Row) : List Row :=
  l.foldl (fun acc r => insertYearDesc r acc) []

/-- The query engine `search_data` (daima.py lines 145-158): copy the frame,
keep the rows matching the text predicate, restrict to the selected year
unless 全部年份 was chosen, and sort by year descending. -/
def search_data (df : List Row) (input : String) (mode : SearchMode)
    (yf : YearFilter) : List Row :=
  let matched := df.filter (rowMatches mode input)
  let filtered :=
    match yf with
    | .allYears => matched
    | .year y => matched.filter (fun r => r.year == y)
  sortYearDesc filtered

/-- The year restriction of `search_data` lines 155-156 as a row predicate,
used to state ordering and stability claims uniformly over both branches. -/
def yearFilterKeep : YearFilter → Row → Bool
  | .allYears, _ => true
  | .year y, r => r.year == y

/-- The caller guard of `main` lines 313-324: an input that is empty after
stripping only produces a warning (`none`); otherwise the engine runs. -/
def main_execute_search (df : List Row) (input : String) (mode : SearchMode)
    (yf : YearFilter) : Option (List Row) :=
  if pyStrip input = "" then none
  else some (search_data df input mode yf)

/-- Model of pandas `Series.nunique` on the code column: the number of
distinct non-missing values. -/
def nunique (l : List (Option String)) : Nat :=
  (l.filterMap id).dedup.length

/-- Model of `Series.mean`: sum over length, exactly on rationals. -/
def seriesMean (l : List ℚ) : ℚ :=
  l.sum / (l.length : ℚ)

/-- Model of `Series.max` on a non-empty column (the empty default is never
displayed). -/
def seriesMax : List ℚ → ℚ
  | [] => 0
  | x :: xs => xs.foldl max x

/-- Model of `Series.min` on a non-empty column. -/
def seriesMin : List ℚ → ℚ
  | [] => 0
  | x :: xs => xs.foldl min x

/-- The statistics line of `display_results`: record count, distinct company
count by stock code, and the three index statistics as formatted with two
decimals by the f-strings of lines 216-220. -/
structure Stats where
  count : Nat
  companies : Nat
  mean_fmt : ℚ
  max_fmt : ℚ
  min_fmt : ℚ
deriving DecidableEq

/-- The summarizer of `display_results` (daima.py lines 202-220): `none`
models the early return with the no-match warning on an empty frame; otherwise
the count, `nunique` of the code column, and mean, max and min of the index
column, each rounded to two decimals for display. -/
def display_results (l : List Row) : Option Stats :=
  if l.isEmpty then none
  else
    some
      { count := l.length
        companies := nunique (l.map Row.stock_code)
        mean_fmt := round2 (seriesMean (l.map Row.index_value))
        max_fmt := round2 (seriesMax (l.map Row.index_value))
        min_fmt := round2 (seriesMin (l.map Row.index_value)) }

/-- Re-embed a normalized record as a raw row, for the idempotence claim. -/
def recordToRaw (r : Record) : RawRow :=
  ⟨.s r.stock_code, .s r.entity_name, .i r.year, .f r.index_value⟩

/-! ### Rounding lemmas -/

/-- The computable rational floor of an integer is that integer. -/
theorem ratFloor_intCast (n : ℤ) : ratFloor ((n : ℤ) : ℚ) = n := by
  unfold ratFloor
  rw [Rat.num_intCast, Rat.den_intCast]
  exact Int.fdiv_one n

/-- Half-even rounding fixes every integer. -/
theorem roundHalfEven_intCast (n : ℤ) : roundHalfEven ((n : ℤ) : ℚ) = n := by
  unfold roundHalfEven
  rw [ratFloor_intCast]
  norm_num

/-- Rounding to two decimals is idempotent: the first rounding produces a
value that is an integer number of hundredths, which the second rounding
fixes. -/
theorem round2_idem (q : ℚ) : round2 (round2 q) = round2 q := by
  unfold round2
  rw [div_mul_cancel₀ _ (by norm_num : (100 : ℚ) ≠ 0), roundHalfEven_intCast]

/-! ### Strip lemmas -/

/-- Dropping a prefix satisfying `p` twice is the same as dropping it once. -/
theorem dropWhile_idem (p : Char → Bool) (l : List Char) :
    (l.dropWhile p).dropWhile p = l.dropWhile p := by
  induction l with
  | nil => rfl
  | cons a l ih =>
    by_cases h : p a
    · simp [List.dropWhile_cons, h, ih]
    · simp [List.dropWhile_cons, h]

/-- The first element surviving `dropWhile` fails the predicate. -/
theorem head?_dropWhile (p : Char → Bool) (l : List Char) (c : Char)
    (h : (l.dropWhile p).head? = some c) : p c = false := by
  induction l with
  | nil => simp at h
  | cons a l ih =>
    by_cases ha : p a
    · exact ih (by simpa [List.dropWhile_cons, ha] using h)
    · simp [List.dropWhile_cons, ha] at h
      subst h
      simpa using ha

/-- dropWhile removes a prefix, so its result is a suffix of the input. -/
theorem dropWhile_suffix_exists (p : Char → Bool) (l : List Char) :
    ∃ t, t ++ l.dropWhile p = l := by
  induction l with
  | nil => exact ⟨[], rfl⟩
  | cons a l ih =>
    by_cases ha : p a
    · obtain ⟨t, ht⟩ := ih
      exact ⟨a :: t, by simp [List.dropWhile_cons, ha, ht]⟩
    · exact ⟨[], by simp [List.dropWhile_cons, ha]⟩

/-- A list whose first element fails the predicate is untouched. -/
theorem dropWhile_eq_self_of_head? (p : Char → Bool) (l : List Char)
    (h : ∀ c, l.head? = some c → p c = false) : l.dropWhile p = l := by
  cases l with
  | nil => rfl
  | cons a l => simp [List.dropWhile_cons, h a rfl]

/-- A non-empty `dropWhile` result keeps the last element of the input. -/
theorem getLast?_dropWhile (p : Char → Bool) (l : List Char)
    (h : l.dropWhile p ≠ []) : (l.dropWhile p).getLast? = l.getLast? := by
  obtain ⟨t, ht⟩ := dropWhile_suffix_exists p l
  conv_rhs => rw [← ht]
  rw [List.getLast?_append]
  cases hd : (l.dropWhile p).getLast? with
  | none => exact absurd (by simpa using hd) h
  | some c => rfl

/-- Stripping both ends of whitespace is idempotent. -/
theorem pyStripList_idem (l : List Char) :
    pyStripList (pyStripList l) = pyStripList l := by
  have h1 : ∀ c,
      (((l.dropWhile Char.isWhitespace).reverse.dropWhile
        Char.isWhitespace).reverse).head? = some c →
      Char.isWhitespace c = false := by
    intro c hc
    rw [List.head?_reverse] at hc
    have hne : (l.dropWhile Char.isWhitespace).reverse.dropWhile
        Char.isWhitespace ≠ [] := by
      intro hnil
      rw [hnil] at hc
      simp at hc
    rw [getLast?_dropWhile _ _ hne, List.getLast?_reverse] at hc
    exact head?_dropWhile _ _ _ hc
  unfold pyStripList
  rw [dropWhile_eq_self_of_head? _ _ h1, List.reverse_reverse, dropWhile_idem]

/-- Python strip is idempotent. -/
theorem pyStrip_idem (s : String) : pyStrip (pyStrip s) = pyStrip s := by
  unfold pyStrip
  exact congrArg String.mk (pyStripList_idem s.data)

/-! ### Zfill lemmas -/

/-- zfill never shortens and pads exactly up to the requested width. -/
theorem pyZfillList_length (w : Nat) (l : List Char) :
    (pyZfillList w l).length = max w l.length := by
  cases l with
  | nil => simp [pyZfillList]
  | cons c rest =>
    by_cases h : w ≤ rest.length + 1
    · simp only [pyZfillList, if_pos h, List.length_cons]
      omega
    · by_cases hc : c = '+' ∨ c = '-'
      · simp only [pyZfillList, if_neg h, if_pos hc, padZeros,
          List.length_cons, List.length_append, List.length_replicate]
        omega
      · simp only [pyZfillList, if_neg h, if_neg hc, padZeros,
          List.length_cons, List.length_append, List.length_replicate]
        omega

/-- Padded width of a string. -/
theorem pyZfill_length (s : String) (w : Nat) :
    (pyZfill s w).length = max w s.length := by
  unfold pyZfill
  rw [String.length_mk]
  exact pyZfillList_length w s.data

/-- zfill of an already wide enough list is the identity. -/
theorem pyZfillList_of_le (w : Nat) (l : List Char) (h : w ≤ l.length) :
    pyZfillList w l = l := by
  cases l with
  | nil =>
    simp only [List.length_nil, Nat.le_zero] at h
    simp [pyZfillList, h]
  | cons c rest =>
    simp only [List.length_cons] at h
    simp [pyZfillList, if_pos h]

/-- zfill of an already wide enough string is the identity. -/
theorem pyZfill_of_le (s : String) (w : Nat) (h : w ≤ s.length) :
    pyZfill s w = s := by
  unfold pyZfill
  rw [pyZfillList_of_le w s.data h]

/-- Padding to 6 and padding again changes nothing. -/
theorem pyZfill_idem (s : String) : pyZfill (pyZfill s 6) 6 = pyZfill s 6 := by
  apply pyZfill_of_le
  rw [pyZfill_length]
  omega

/-- zfill of a digit-only list stays digit-only: the inserted characters are
zero digits and nothing else changes. -/
theorem pyZfillList_digits (w : Nat) (l : List Char)
    (h : ∀ c ∈ l, c.isDigit = true) :
    ∀ c ∈ pyZfillList w l, c.isDigit = true := by
  cases l with
  | nil =>
    intro c hc
    rw [pyZfillList] at hc
    rw [List.mem_replicate] at hc
    rw [hc.2]
    decide
  | cons a rest =>
    by_cases hw : w ≤ rest.length + 1
    · simp only [pyZfillList, if_pos hw]
      exact h
    · by_cases hc : a = '+' ∨ a = '-'
      · exfalso
        have ha := h a (List.mem_cons_self a rest)
        rcases hc with rfl | rfl <;> simp at ha
      · simp only [pyZfillList, if_neg hw, if_neg hc]
        intro c hcmem
        simp only [padZeros, List.mem_append, List.mem_replicate] at hcmem
        rcases hcmem with ⟨-, rfl⟩ | hmem
        · decide
        · exact h c hmem

/-! ### Substring lemmas -/

/-- The boolean starts-with test agrees with list decomposition. -/
theorem listStartsWith_iff (p l : List Char) :
    listStartsWith p l = true ↔ ∃ t, l = p ++ t := by
  induction p generalizing l with
  | nil => simp [listStartsWith]
  | cons a as ih =>
    cases l with
    | nil => simp [listStartsWith]
    | cons b bs =>
      simp only [listStartsWith, Bool.and_eq_true, beq_iff_eq, ih,
        List.cons_append, List.cons.injEq]
      constructor
      · rintro ⟨rfl, t, rfl⟩
        exact ⟨t, rfl, rfl⟩
      · rintro ⟨t, rfl, rfl⟩
        exact ⟨rfl, t, rfl⟩

/-- The boolean contains test agrees with infix decomposition. -/
theorem hasInfixList_iff (pat l : List Char) :
    hasInfixList pat l = true ↔ ∃ pre post, l = pre ++ pat ++ post := by
  induction l with
  | nil =>
    simp only [hasInfixList, List.isEmpty_iff]
    constructor
    · rintro rfl
      exact ⟨[], [], rfl⟩
    · rintro ⟨pre, post, h⟩
      rcases List.append_eq_nil.mp (List.append_eq_nil.mp h.symm).1 with ⟨-, h2⟩
      exact h2
  | cons c rest ih =>
    simp only [hasInfixList, Bool.or_eq_true, listStartsWith_iff, ih]
    constructor
    · rintro (⟨t, ht⟩ | ⟨pre, post, h⟩)
      · exact ⟨[], t, by simpa using ht⟩
      · exact ⟨c :: pre, post, by simp [h]⟩
    · rintro ⟨pre, post, h⟩
      cases pre with
      | nil =>
        exact Or.inl ⟨post, by simpa using h⟩
      | cons x xs =>
        right
        simp only [List.cons_append, List.cons.injEq] at h
        exact ⟨xs, post, h.2⟩

/-- The empty pattern is contained in every list. -/
theorem hasInfixList_nil (l : List Char) : hasInfixList [] l = true := by
  cases l with
  | nil => rfl
  | cons c rest => simp [hasInfixList, listStartsWith]

/-- The cell containment test agrees with the substring proposition. -/
theorem strContains_iff (s pat : String) :
    strContains s pat = true ↔ IsSubstring pat s := by
  unfold strContains IsSubstring
  rw [hasInfixList_iff]

/-! ### Sort lemmas -/

/-- Membership in an insertion. -/
theorem mem_insertYearDesc (r x : Row) (l : List Row) :
    x ∈ insertYearDesc r l ↔ x = r ∨ x ∈ l := by
  induction l with
  | nil => simp [insertYearDesc]
  | cons a l ih =>
    by_cases h : r.year ≤ a.year
    · simp only [insertYearDesc, if_pos h, List.mem_cons, ih]
      tauto
    · simp only [insertYearDesc, if_neg h, List.mem_cons]

/-- Insertion permutes consing. -/
theorem insertYearDesc_perm (r : Row) (l : List Row) :
    (insertYearDesc r l).Perm (r :: l) := by
  induction l with
  | nil => exact List.Perm.refl _
  | cons a l ih =>
    by_cases h : r.year ≤ a.year
    · simp only [insertYearDesc, if_pos h]
      exact (ih.cons a).trans (List.Perm.swap r a l)
    · simp only [insertYearDesc, if_neg h]
      exact List.Perm.refl _

/-- Insertion preserves the descending-by-year ordering. -/
theorem insertYearDesc_pairwise (r : Row) (l : List Row)
    (h : List.Pairwise (fun a b => b.year ≤ a.year) l) :
    List.Pairwise (fun a b => b.year ≤ a.year) (insertYearDesc r l) := by
  induction l with
  | nil => simp [insertYearDesc]
  | cons a l ih =>
    rw [List.pairwise_cons] at h
    by_cases hr : r.year ≤ a.year
    · simp only [insertYearDesc, if_pos hr]
      rw [List.pairwise_cons]
      refine ⟨?_, ih h.2⟩
      intro b hb
      rcases (mem_insertYearDesc r b l).mp hb with rfl | hbl
      · exact hr
      · exact h.1 b hbl
    · simp only [insertYearDesc, if_neg hr]
      rw [List.pairwise_cons]
      refine ⟨?_, by rw [List.pairwise_cons]; exact h⟩
      intro b hb
      have ha : a.year ≤ r.year := le_of_lt (lt_of_not_le hr)
      rcases List.mem_cons.mp hb with rfl | hbl
      · exact ha
      · exact le_trans (h.1 b hbl) ha

/-- The insertion fold keeps the accumulator sorted. -/
theorem foldlInsert_pairwise (l : List Row) :
    ∀ acc, List.Pairwise (fun a b => b.year ≤ a.year) acc →
    List.Pairwise (fun a b => b.year ≤ a.year)
      (l.foldl (fun acc r => insertYearDesc r acc) acc) := by
  induction l with
  | nil => exact fun acc h => h
  | cons r l ih =>
    intro acc h
    exact ih _ (insertYearDesc_pairwise r acc h)

/-- The insertion fold permutes appending. -/
theorem foldlInsert_perm (l : List Row) :
    ∀ acc, (l.foldl (fun acc r => insertYearDesc r acc) acc).Perm (acc ++ l) := by
  induction l with
  | nil => intro acc; simp
  | cons r l ih =>
    intro acc
    rw [List.foldl_cons]
    refine (ih (insertYearDesc r acc)).trans ?_
    refine (List.Perm.append_right l (insertYearDesc_perm r acc)).trans ?_
    exact List.perm_middle.symm

/-- Model admissibility: the modelled sort output is ordered by year
descending, a property every sort kind of the program guarantees (only the
order among tied rows is implementation defined). -/
theorem sortYearDesc_pairwise (l : List Row) :
    List.Pairwise (fun a b => b.year ≤ a.year) (sortYearDesc l) :=
  foldlInsert_pairwise l [] List.Pairwise.nil

/-- The sort permutes the input. -/
theorem sortYearDesc_perm (l : List Row) : (sortYearDesc l).Perm l := by
  unfold sortYearDesc
  simpa using foldlInsert_perm l []

/-- Sorting does not change membership. -/
theorem mem_sortYearDesc (x : Row) (l : List Row) :
    x ∈ sortYearDesc l ↔ x ∈ l :=
  (sortYearDesc_perm l).mem_iff

/-! ### Cleaning lemmas -/

/-- A row whose year cell does not coerce is rejected. -/
theorem cleanRow_year_none (r : RawRow) (h : pyToInt r.year = none) :
    cleanRow r = none := by
  unfold cleanRow
  rw [h]

/-- One rejected row fails the whole table. -/
theorem cleanRows_none (rows : List RawRow) (r : RawRow) (hr : r ∈ rows)
    (h : cleanRow r = none) : cleanRows rows = none := by
  induction rows with
  | nil => simp at hr
  | cons a rows ih =>
    rcases List.mem_cons.mp hr with rfl | hmem
    · unfold cleanRows
      rw [h]
    · unfold cleanRows
      rw [ih hmem]
      cases cleanRow a <;> rfl

/-- A successful cleaning keeps every row: no per-row skip happens during
coercion. -/
theorem cleanRows_length (rows : List RawRow) :
    ∀ recs, cleanRows rows = some recs → recs.length = rows.length := by
  induction rows with
  | nil =>
    intro recs h
    unfold cleanRows at h
    injection h with h
    rw [← h]
    rfl
  | cons a rows ih =>
    intro recs h
    unfold cleanRows at h
    cases ha : cleanRow a with
    | none =>
      rw [ha] at h
      cases hrs : cleanRows rows <;> rw [hrs] at h <;> exact absurd h (by simp)
    | some rec =>
      rw [ha] at h
      cases hrs : cleanRows rows with
      | none =>
        rw [hrs] at h
        exact absurd h (by simp)
      | some recs2 =>
        rw [hrs] at h
        injection h with h
        rw [← h, List.length_cons, List.length_cons, ih recs2 hrs]

/-- Every cleaned record arises from some raw row of the table. -/
theorem cleanRows_mem (rows : List RawRow) :
    ∀ recs, cleanRows rows = some recs →
    ∀ rec ∈ recs, ∃ raw ∈ rows, cleanRow raw = some rec := by
  induction rows with
  | nil =>
    intro recs h rec hrec
    unfold cleanRows at h
    injection h with h
    rw [← h] at hrec
    simp at hrec
  | cons a rows ih =>
    intro recs h rec hrec
    unfold cleanRows at h
    cases ha : cleanRow a with
    | none =>
      rw [ha] at h
      cases hrs : cleanRows rows <;> rw [hrs] at h <;> exact absurd h (by simp)
    | some rec2 =>
      rw [ha] at h
      cases hrs : cleanRows rows with
      | none =>
        rw [hrs] at h
        exact absurd h (by simp)
      | some recs2 =>
        rw [hrs] at h
        injection h with h
        rw [← h] at hrec
        rcases List.mem_cons.mp hrec with rfl | hmem
        · exact ⟨a, List.mem_cons_self a rows, ha⟩
        · obtain ⟨raw, hraw, hc⟩ := ih recs2 hrs rec hmem
          exact ⟨raw, List.mem_cons_of_mem a hraw, hc⟩

/-- Cleaning a mapped list succeeds pointwise. -/
theorem cleanRows_map (f : Record → RawRow) (ds : List Record)
    (h : ∀ r ∈ ds, cleanRow (f r) = some r) : cleanRows (ds.map f) = some ds := by
  induction ds with
  | nil => rfl
  | cons r ds ih =>
    simp only [List.map_cons]
    unfold cleanRows
    rw [h r (List.mem_cons_self r ds),
      ih (fun x hx => h x (List.mem_cons_of_mem r hx))]

/-- Inversion of one successful row cleaning: shape of every field. -/
theorem cleanRow_some_inv (raw : RawRow) (rec : Record)
    (h : cleanRow raw = some rec) :
    rec.stock_code = pyZfill (pyStr raw.stock_code) 6 ∧
    rec.entity_name = pyStrip (pyStr raw.entity_name) ∧
    (∃ y, pyToInt raw.year = some y ∧ rec.year = y) ∧
    (∃ iv, pyToRat raw.index_value = some iv ∧ rec.index_value = round2 iv) := by
  unfold cleanRow at h
  cases hy : pyToInt raw.year with
  | none =>
    rw [hy] at h
    cases hiv : pyToRat raw.index_value <;> rw [hiv] at h <;>
      exact absurd h (by simp)
  | some y =>
    rw [hy] at h
    cases hiv : pyToRat raw.index_value with
    | none =>
      rw [hiv] at h
      exact absurd h (by simp)
    | some iv =>
      rw [hiv] at h
      injection h with h2
      subst h2
      exact ⟨rfl, rfl, ⟨y, rfl, rfl⟩, ⟨iv, rfl, rfl⟩⟩

/-- Re-cleaning a record produced by cleaning gives it back unchanged:
padding, stripping and rounding are idempotent and the year and index cells
coerce trivially. -/
theorem cleanRow_recordToRaw (raw : RawRow) (rec : Record)
    (h : cleanRow raw = some rec) : cleanRow (recordToRaw rec) = some rec := by
  obtain ⟨hc, hn, ⟨y, _, _⟩, ⟨iv, _, hriv⟩⟩ := cleanRow_some_inv raw rec h
  have h1 : pyZfill rec.stock_code 6 = rec.stock_code := by
    rw [hc, pyZfill_idem]
  have h2 : pyStrip rec.entity_name = rec.entity_name := by
    rw [hn, pyStrip_idem]
  have h3 : round2 rec.index_value = rec.index_value := by
    rw [hriv, round2_idem]
  unfold cleanRow recordToRaw
  simp only [pyToInt, pyToRat, pyStr]
  rw [h1, h2, h3]

/-! ### Encoding lemmas -/

/-- The retry loop fails exactly when every candidate fails. -/
theorem tryEncodings_none_iff (d : String → Option (List RawRow))
    (l : List String) :
    tryEncodings d l = none ↔ ∀ e ∈ l, d e = none := by
  induction l with
  | nil => simp [tryEncodings]
  | cons e rest ih =>
    unfold tryEncodings
    cases hd : d e with
    | some t =>
      constructor
      · intro h
        exact absurd h (by simp)
      · intro h
        have h2 := h e (List.mem_cons_self e rest)
        rw [hd] at h2
        exact absurd h2 (by simp)
    | none =>
      rw [ih]
      constructor
      · intro h x hx
        rcases List.mem_cons.mp hx with rfl | hx2
        · exact hd
        · exact h x hx2
      · intro h x hx
        exact h x (List.mem_cons_of_mem e hx)

/-- The retry loop returns a table exactly when some candidate produces it
and every earlier candidate fails: first success wins. -/
theorem tryEncodings_some_iff (d : String → Option (List RawRow))
    (l : List String) (t : List RawRow) :
    tryEncodings d l = some t ↔
      ∃ pre e post, l = pre ++ e :: post ∧ d e = some t ∧
        ∀ x ∈ pre, d x = none := by
  induction l with
  | nil =>
    constructor
    · intro h
      exact absurd h (by simp [tryEncodings])
    · rintro ⟨pre, e, post, hl, -, -⟩
      exact absurd hl.symm (by simp)
  | cons a rest ih =>
    unfold tryEncodings
    cases hd : d a with
    | some t2 =>
      constructor
      · intro h
        injection h with h
        subst h
        exact ⟨[], a, rest, rfl, hd, by simp⟩
      · rintro ⟨pre, e, post, hl, he, hpre⟩
        cases pre with
        | nil =>
          simp only [List.nil_append, List.cons.injEq] at hl
          rw [← hl.1] at he
          rw [hd] at he
          exact he
        | cons p ps =>
          simp only [List.cons_append, List.cons.injEq] at hl
          have hp := hpre p (List.mem_cons_self p ps)
          rw [← hl.1] at hp
          rw [hd] at hp
          exact absurd hp (by simp)
    | none =>
      rw [ih]
      constructor
      · rintro ⟨pre, e, post, hl, he, hpre⟩
        refine ⟨a :: pre, e, post, by rw [hl]; rfl, he, ?_⟩
        intro x hx
        rcases List.mem_cons.mp hx with rfl | hx2
        · exact hd
        · exact hpre x hx2
      · rintro ⟨pre, e, post, hl, he, hpre⟩
        cases pre with
        | nil =>
          simp only [List.nil_append, List.cons.injEq] at hl
          rw [← hl.1] at he
          rw [hd] at he
          exact absurd he (by simp)
        | cons p ps =>
          simp only [List.cons_append, List.cons.injEq] at hl
          exact ⟨ps, e, post, hl.2, he,
            fun x hx => hpre x (List.mem_cons_of_mem p hx)⟩

/-! ### Fold statistics lemmas -/

/-- The max fold result is the seed or a list element. -/
theorem foldl_max_mem (x : ℚ) (xs : List ℚ) :
    xs.foldl max x = x ∨ xs.foldl max x ∈ xs := by
  induction xs generalizing x with
  | nil => exact Or.inl rfl
  | cons a l ih =>
    rw [List.foldl_cons]
    rcases ih (max x a) with h | h
    · rcases max_choice x a with h2 | h2
      · exact Or.inl (by rw [h, h2])
      · refine Or.inr ?_
        rw [h, h2]
        exact List.mem_cons_self a l
    · exact Or.inr (List.mem_cons_of_mem a h)

/-- The seed bounds the max fold from below. -/
theorem seed_le_foldl_max (x : ℚ) (xs : List ℚ) : x ≤ xs.foldl max x := by
  induction xs generalizing x with
  | nil => exact le_refl x
  | cons a l ih => exact le_trans (le_max_left x a) (ih (max x a))

/-- Every element bounds the max fold from below. -/
theorem mem_le_foldl_max (x : ℚ) (xs : List ℚ) :
    ∀ a ∈ xs, a ≤ xs.foldl max x := by
  induction xs generalizing x with
  | nil =>
    intro a ha
    simp at ha
  | cons b l ih =>
    intro a ha
    rcases List.mem_cons.mp ha with rfl | h2
    · exact le_trans (le_max_right x a) (seed_le_foldl_max (max x a) l)
    · exact ih (max x b) a h2

/-- The min fold result is the seed or a list element. -/
theorem foldl_min_mem (x : ℚ) (xs : List ℚ) :
    xs.foldl min x = x ∨ xs.foldl min x ∈ xs := by
  induction xs generalizing x with
  | nil => exact Or.inl rfl
  | cons a l ih =>
    rw [List.foldl_cons]
    rcases ih (min x a) with h | h
    · rcases min_choice x a with h2 | h2
      · exact Or.inl (by rw [h, h2])
      · refine Or.inr ?_
        rw [h, h2]
        exact List.mem_cons_self a l
    · exact Or.inr (List.mem_cons_of_mem a h)

/-- The seed bounds the min fold from above. -/
theorem foldl_min_le_seed (x : ℚ) (xs : List ℚ) : xs.foldl min x ≤ x := by
  induction xs generalizing x with
  | nil => exact le_refl x
  | cons a l ih => exact le_trans (ih (min x a)) (min_le_left x a)

/-- The min fold bounds every element from below. -/
theorem foldl_min_le_mem (x : ℚ) (xs : List ℚ) :
    ∀ a ∈ xs, xs.foldl min x ≤ a := by
  induction xs generalizing x with
  | nil =>
    intro a ha
    simp at ha
  | cons b l ih =>
    intro a ha
    rcases List.mem_cons.mp ha with rfl | h2
    · exact le_trans (foldl_min_le_seed (min x a) l) (min_le_right x a)
    · exact ih (min x b) a h2

/-- The distinct count agrees with the cardinality of the value set. -/
theorem nunique_eq_card (l : List (Option String)) :
    nunique l = (l.filterMap id).toFinset.card := by
  unfold nunique
  rw [List.card_toFinset]

/-! ### Query engine bridging lemmas -/

/-- With 全部年份 no year restriction is applied. -/
theorem search_data_allYears (df : List Row) (input : String)
    (mode : SearchMode) :
    search_data df input mode .allYears =
      sortYearDesc (df.filter (rowMatches mode input)) := rfl

/-- With a selected year the matches are further restricted to it. -/
theorem search_data_year (df : List Row) (input : String) (mode : SearchMode)
    (y : Int) :
    search_data df input mode (.year y) =
      sortYearDesc ((df.filter (rowMatches mode input)).filter
        (fun r => r.year == y)) := rfl

/-- Both branches of the engine as one filter expression. -/
theorem search_data_eq_filter (df : List Row) (input : String)
    (mode : SearchMode) (yf : YearFilter) :
    search_data df input mode yf =
      sortYearDesc ((df.filter (rowMatches mode input)).filter
        (yearFilterKeep yf)) := by
  cases yf with
  | allYears =>
    rw [search_data_allYears]
    congr 1
    exact (List.filter_eq_self.mpr (fun a _ => rfl)).symm
  | year y => rfl

/-- The max statistic over a non-empty frame is attained by a row and bounds
every row. -/
theorem seriesMax_row (a : Row) (rest : List Row) :
    (∃ r, (r = a ∨ r ∈ rest) ∧
      seriesMax ((a :: rest).map Row.index_value) = r.index_value) ∧
    (∀ r2, (r2 = a ∨ r2 ∈ rest) →
      r2.index_value ≤ seriesMax ((a :: rest).map Row.index_value)) := by
  constructor
  · rcases foldl_max_mem a.index_value (rest.map Row.index_value) with hm | hm
    · exact ⟨a, Or.inl rfl, hm⟩
    · obtain ⟨r, hr, hre⟩ := List.mem_map.mp hm
      exact ⟨r, Or.inr hr, hre.symm⟩
  · rintro r2 (rfl | h)
    · exact seed_le_foldl_max _ _
    · exact mem_le_foldl_max _ _ _ (List.mem_map_of_mem Row.index_value h)

/-- The min statistic over a non-empty frame is attained by a row and is
bounded by every row. -/
theorem seriesMin_row (a : Row) (rest : List Row) :
    (∃ r, (r = a ∨ r ∈ rest) ∧
      seriesMin ((a :: rest).map Row.index_value) = r.index_value) ∧
    (∀ r2, (r2 = a ∨ r2 ∈ rest) →
      seriesMin ((a :: rest).map Row.index_value) ≤ r2.index_value) := by
  constructor
  · rcases foldl_min_mem a.index_value (rest.map Row.index_value) with hm | hm
    · exact ⟨a, Or.inl rfl, hm⟩
    · obtain ⟨r, hr, hre⟩ := List.mem_map.mp hm
      exact ⟨r, Or.inr hr, hre.symm⟩
  · rintro r2 (rfl | h)
    · exact foldl_min_le_seed _ _
    · exact foldl_min_le_mem _ _ _ (List.mem_map_of_mem Row.index_value h)

/-! ### Claim theorems -/

/-- C1, counterexample: on a one-record dataset, an entity-name query with an
empty search term returns the whole dataset, not an empty result — the engine
does not special-case the empty predicate. -/
theorem C1_counterexample :
    search_data [⟨some "000001", some "甲", 2020, (1 : ℚ)⟩] ""
      SearchMode.entityName YearFilter.allYears =
      [⟨some "000001", some "甲", 2020, (1 : ℚ)⟩] := by decide

/-- C1, amended: an input that is empty after trimming is rejected by the
caller in `main` before the engine runs; the engine itself does not
special-case it: in entity-name mode an empty term matches every record with
a present name, and in stock-code mode the empty term is padded to "000000"
and matches exactly the records whose code contains "000000". -/
theorem C1_empty_input (df : List Row) (input : String) (mode : SearchMode)
    (yf : YearFilter) (r : Row) (h : pyStrip input = "") :
    main_execute_search df input mode yf = none ∧
    (r ∈ search_data df input .entityName .allYears ↔
      r ∈ df ∧ r.entity_name ≠ none) ∧
    (r ∈ search_data df input .stockCode .allYears ↔
      r ∈ df ∧ ∃ c, r.stock_code = some c ∧ strContains c "000000" = true) := by
  refine ⟨?_, ?_, ?_⟩
  · unfold main_execute_search
    rw [if_pos h]
  · rw [search_data_allYears, mem_sortYearDesc, List.mem_filter]
    apply and_congr_right
    intro _
    cases hc : r.entity_name with
    | none => simp [rowMatches, hc]
    | some n =>
      simp only [rowMatches, hc]
      rw [h]
      have hempty : strContains (pyLower n) (pyLower "") = true :=
        hasInfixList_nil _
      simp [hempty]
  · rw [search_data_allYears, mem_sortYearDesc, List.mem_filter]
    apply and_congr_right
    intro _
    cases hc : r.stock_code with
    | none => simp [rowMatches, hc]
    | some c =>
      simp only [rowMatches, hc]
      rw [h]
      have hpad : pyZfill "" 6 = "000000" := by decide
      rw [hpad]
      constructor
      · intro hcon
        exact ⟨c, rfl, hcon⟩
      · rintro ⟨c2, hc2, hcon⟩
        injection hc2 with h3
        subst h3
        exact hcon

/-- C1, witness for the amended theorem at a concrete blank input. -/
theorem C1_witness :
    main_execute_search [] " " SearchMode.entityName YearFilter.allYears =
      none :=
  (C1_empty_input [] " " .entityName .allYears ⟨none, none, 0, 0⟩
    (by decide)).1

/-- C3, counterexample: the three-digit input "600" is padded to "000600"
before matching, so the code "600008" — which does contain the run "600" —
is not returned: a 3-digit input does not match any code containing that run
anywhere. -/
theorem C3_counterexample :
    search_data [⟨some "600008", some "a", 2020, (1 : ℚ)⟩] "600"
      SearchMode.stockCode YearFilter.allYears = [] ∧
    IsSubstring "600" "600008" :=
  ⟨by decide, ⟨[], ['0', '0', '8'], by decide⟩⟩

/-- C3, amended: in stock-code mode the term is stripped and zero-padded to 6
characters, and a record matches exactly when its code contains the padded
term as a substring; since codes are 6 characters long this means a short
input only matches through its padded form, not through its bare digit run. -/
theorem C3_padded_substring (df : List Row) (input : String) (r : Row) :
    r ∈ search_data df input .stockCode .allYears ↔
      r ∈ df ∧ ∃ c, r.stock_code = some c ∧
        IsSubstring (pyZfill (pyStrip input) 6) c := by
  rw [search_data_allYears, mem_sortYearDesc, List.mem_filter]
  apply and_congr_right
  intro _
  cases hc : r.stock_code with
  | none => simp [rowMatches, hc]
  | some c =>
    simp only [rowMatches, hc]
    rw [strContains_iff]
    constructor
    · intro h
      exact ⟨c, rfl, h⟩
    · rintro ⟨c2, hc2, h⟩
      injection hc2 with h3
      subst h3
      exact h

/-- C5: every row of a year-restricted query result carries the selected
year; the restricted result is a subset of the all-years result, and as a
multiset it is exactly the all-years text-match set restricted to that year;
with 全部年份 the returned set equals the text-match set. All statements are
invariant under the order of tied rows, so they hold for every admissible
outcome of the program sort. -/
theorem C5_year_restriction (df : List Row) (input : String)
    (mode : SearchMode) (y : Int) :
    (∀ r ∈ search_data df input mode (.year y), r.year = y) ∧
    (∀ r ∈ search_data df input mode (.year y),
      r ∈ search_data df input mode .allYears) ∧
    (search_data df input mode (.year y)).Perm
      ((df.filter (rowMatches mode input)).filter (fun r => r.year == y)) ∧
    (search_data df input mode .allYears).Perm
      (df.filter (rowMatches mode input)) := by
  have hall : (search_data df input mode .allYears).Perm
      (df.filter (rowMatches mode input)) := by
    rw [search_data_allYears]
    exact sortYearDesc_perm _
  have hyr : (search_data df input mode (.year y)).Perm
      ((df.filter (rowMatches mode input)).filter (fun r => r.year == y)) := by
    rw [search_data_year]
    exact sortYearDesc_perm _
  refine ⟨?_, ?_, hyr, hall⟩
  · intro r hr
    have h2 := hyr.mem_iff.mp hr
    rw [List.mem_filter] at h2
    simpa using h2.2
  · intro r hr
    have h2 := hyr.mem_iff.mp hr
    rw [List.mem_filter] at h2
    exact hall.mem_iff.mpr h2.1

/-- C5, witness at a one-record dataset and a matching year. -/
theorem C5_witness :
    (⟨some "000001", some "a", 2020, (1 : ℚ)⟩ : Row).year = 2020 :=
  (C5_year_restriction [⟨some "000001", some "a", 2020, (1 : ℚ)⟩] "000001"
    .stockCode 2020).1 ⟨some "000001", some "a", 2020, (1 : ℚ)⟩ (by decide)

/-- C10: a row with a missing searched cell never matches in the
corresponding mode, and the engine only selects rows of the input frame —
the query is a pure function of the frame and returns a sublist of its
copy. -/
theorem C10_missing_cells (df : List Row) (input : String) (yf : YearFilter)
    (r : Row) :
    (r.stock_code = none → r ∉ search_data df input .stockCode yf) ∧
    (r.entity_name = none → r ∉ search_data df input .entityName yf) ∧
    (∀ mode, r ∈ search_data df input mode yf → r ∈ df) := by
  have hmem : ∀ mode, r ∈ search_data df input mode yf →
      r ∈ df ∧ rowMatches mode input r = true := by
    intro mode hr
    rw [search_data_eq_filter, mem_sortYearDesc, List.mem_filter] at hr
    obtain ⟨hr1, -⟩ := hr
    rw [List.mem_filter] at hr1
    exact hr1
  refine ⟨?_, ?_, fun mode hr => (hmem mode hr).1⟩
  · intro hc hr
    have h2 := (hmem _ hr).2
    simp [rowMatches, hc] at h2
  · intro hc hr
    have h2 := (hmem _ hr).2
    simp [rowMatches, hc] at h2

/-- C10, witness: a row with a missing code is not returned by a stock-code
query over the one-row frame containing it. -/
theorem C10_witness :
    (⟨none, some "a", 2020, (1 : ℚ)⟩ : Row) ∉
      search_data [⟨none, some "a", 2020, (1 : ℚ)⟩] "000001"
        SearchMode.stockCode YearFilter.allYears :=
  (C10_missing_cells [⟨none, some "a", 2020, (1 : ℚ)⟩] "000001" .allYears
    ⟨none, some "a", 2020, (1 : ℚ)⟩).1 rfl

/-- C2, counterexample: a raw code whose string form has 7 characters is
accepted by normalization and stored unchanged — zfill never truncates, so
the stored stock code is not 6 characters long. -/
theorem C2_counterexample :
    clean_data [⟨PyVal.s "1234567", PyVal.s "X", PyVal.i 2000, PyVal.i 0⟩] =
      Except.ok [⟨"1234567", "X", 2000, round2 ((0 : ℤ) : ℚ)⟩] ∧
    ("1234567" : String).length ≠ 6 :=
  ⟨rfl, by decide⟩

/-- C2, amended: every stored stock code is the zero-fill of the stringified
raw code, with length the maximum of 6 and the raw length; it is exactly 6
digits when the raw string form is at most 6 characters and all digits, while
longer or non-digit raw codes pass through with at most zero padding. -/
theorem C2_code_shape (rows : List RawRow) (ds : List Record)
    (h : clean_data rows = Except.ok ds) :
    ∀ rec ∈ ds, ∃ raw ∈ rows,
      rec.stock_code = pyZfill (pyStr raw.stock_code) 6 ∧
      rec.stock_code.length = max 6 (pyStr raw.stock_code).length ∧
      ((pyStr raw.stock_code).length ≤ 6 →
        (∀ c ∈ (pyStr raw.stock_code).data, c.isDigit = true) →
        rec.stock_code.length = 6 ∧
        ∀ c ∈ rec.stock_code.data, c.isDigit = true) := by
  intro rec hrec
  unfold clean_data at h
  cases hcr : cleanRows rows with
  | none =>
    rw [hcr] at h
    exact absurd h (by simp)
  | some recs =>
    rw [hcr] at h
    injection h with h
    rw [← h] at hrec
    obtain ⟨raw, hraw, hclean⟩ :=
      cleanRows_mem rows recs hcr rec (List.mem_of_mem_filter hrec)
    obtain ⟨hc, -, -, -⟩ := cleanRow_some_inv raw rec hclean
    refine ⟨raw, hraw, hc, ?_, ?_⟩
    · rw [hc, pyZfill_length]
    · intro hlen hdig
      constructor
      · rw [hc, pyZfill_length]
        omega
      · rw [hc]
        exact pyZfillList_digits 6 _ hdig

/-- C2, witness for the amended theorem on a well-formed 6-digit code. -/
theorem C2_witness :
    ∃ raw ∈ [(⟨PyVal.s "600008", PyVal.s "X", PyVal.i 2010, PyVal.i 0⟩ :
        RawRow)],
      ("600008" : String) = pyZfill (pyStr raw.stock_code) 6 ∧
      ("600008" : String).length = max 6 (pyStr raw.stock_code).length := by
  obtain ⟨raw, hraw, h1, h2, -⟩ :=
    C2_code_shape [⟨PyVal.s "600008", PyVal.s "X", PyVal.i 2010, PyVal.i 0⟩]
      [⟨"600008", "X", 2010, round2 ((0 : ℤ) : ℚ)⟩] rfl
      ⟨"600008", "X", 2010, round2 ((0 : ℤ) : ℚ)⟩ (List.mem_singleton.mpr rfl)
  exact ⟨raw, hraw, h1, h2⟩

/-- C6: a year cell that does not coerce to an integer fails the whole load
with an error and no partial dataset; when every row coerces, no row is
skipped by coercion (the cleaned table has one record per raw row) and rows
are dropped only by the year-range filter [1999, 2023], applied after
coercion. -/
theorem C6_fatal_year_coercion (rows : List RawRow) :
    ((∃ r ∈ rows, pyToInt r.year = none) →
      ∃ msg, clean_data rows = Except.error msg) ∧
    (∀ recs, cleanRows rows = some recs →
      clean_data rows = Except.ok (recs.filter (fun rec => yearOK rec.year)) ∧
      recs.length = rows.length) := by
  constructor
  · rintro ⟨r, hr, hnone⟩
    refine ⟨"加载失败", ?_⟩
    unfold clean_data
    rw [cleanRows_none rows r hr (cleanRow_year_none r hnone)]
  · intro recs h
    constructor
    · unfold clean_data
      rw [h]
    · exact cleanRows_length rows recs h

/-- C6, witness: a non-numeric year string aborts the load, and a numeric
load keeps one record per row before the range filter. -/
theorem C6_witness :
    (∃ msg, clean_data
      [(⟨PyVal.s "1", PyVal.s "a", PyVal.s "xyz", PyVal.i 0⟩ : RawRow)] =
        Except.error msg) ∧
    clean_data [(⟨PyVal.s "1", PyVal.s "a", PyVal.i 2010, PyVal.i 0⟩ :
        RawRow)] =
      Except.ok ([(⟨pyZfill "1" 6, pyStrip "a", 2010, round2 ((0 : ℤ) : ℚ)⟩ :
        Record)].filter (fun rec => yearOK rec.year)) :=
  ⟨(C6_fatal_year_coercion
      [⟨PyVal.s "1", PyVal.s "a", PyVal.s "xyz", PyVal.i 0⟩]).1
      ⟨_, List.mem_singleton.mpr rfl, by decide⟩,
    ((C6_fatal_year_coercion
      [⟨PyVal.s "1", PyVal.s "a", PyVal.i 2010, PyVal.i 0⟩]).2 _ rfl).1⟩

/-- C7: normalization is idempotent — re-cleaning the dataset produced by a
successful load yields the identical dataset: padding, stripping, rounding
and the year filter all fix their own output. -/
theorem C7_idempotent (rows : List RawRow) (ds : List Record)
    (h : clean_data rows = Except.ok ds) :
    clean_data (ds.map recordToRaw) = Except.ok ds := by
  unfold clean_data at h
  cases hcr : cleanRows rows with
  | none =>
    rw [hcr] at h
    exact absurd h (by simp)
  | some recs =>
    rw [hcr] at h
    injection h with h
    have hclean : ∀ r ∈ ds, cleanRow (recordToRaw r) = some r := by
      intro r hr
      rw [← h] at hr
      obtain ⟨raw, -, hrw⟩ :=
        cleanRows_mem rows recs hcr r (List.mem_of_mem_filter hr)
      exact cleanRow_recordToRaw raw r hrw
    have hyear : ∀ r ∈ ds, yearOK r.year = true := by
      intro r hr
      rw [← h] at hr
      exact (List.mem_filter.mp hr).2
    unfold clean_data
    rw [cleanRows_map recordToRaw ds hclean]
    show Except.ok (ds.filter (fun rec => yearOK rec.year)) = Except.ok ds
    rw [List.filter_eq_self.mpr hyear]

/-- C7, witness at a concrete one-row table. -/
theorem C7_witness :
    clean_data ([(⟨"600008", "X", 2010, round2 ((0 : ℤ) : ℚ)⟩ :
        Record)].map recordToRaw) =
      Except.ok [(⟨"600008", "X", 2010, round2 ((0 : ℤ) : ℚ)⟩ : Record)] :=
  C7_idempotent [⟨PyVal.s "600008", PyVal.s "X", PyVal.i 2010, PyVal.i 0⟩]
    _ rfl

/-- C8: the CSV loader returns a table exactly when one of the candidate
encodings gbk, gb2312, utf-8-sig, latin-1 — tried in that order — parses it
and every earlier candidate fails, and returns the tagged encoding error when
no candidate parses. -/
theorem C8_encoding_order (decode : String → Option (List RawRow)) :
    (∀ t, load_csv decode = Except.ok t ↔
      ∃ pre e post, csvEncodings = pre ++ e :: post ∧ decode e = some t ∧
        ∀ x ∈ pre, decode x = none) ∧
    ((∀ e ∈ csvEncodings, decode e = none) →
      load_csv decode = Except.error "无法识别CSV编码，请用Excel另存为UTF-8格式") := by
  constructor
  · intro t
    unfold load_csv
    cases htry : tryEncodings decode csvEncodings with
    | some t2 =>
      constructor
      · intro h
        injection h with h
        subst h
        exact (tryEncodings_some_iff decode csvEncodings t2).mp htry
      · intro hex
        have h2 := (tryEncodings_some_iff decode csvEncodings t).mpr hex
        rw [htry] at h2
        injection h2 with h2
        rw [h2]
    | none =>
      constructor
      · intro h
        exact absurd h (by simp)
      · intro hex
        have h2 := (tryEncodings_some_iff decode csvEncodings t).mpr hex
        rw [htry] at h2
        exact absurd h2 (by simp)
  · intro hall
    unfold load_csv
    rw [(tryEncodings_none_iff decode csvEncodings).mpr hall]

/-- C8, witness: a decoder failing on gbk and succeeding on gb2312 makes the
loader return the gb2312 table. -/
theorem C8_witness :
    load_csv (fun e => if e = "gb2312" then some [] else none) =
      Except.ok [] :=
  ((C8_encoding_order _).1 []).mpr
    ⟨["gbk"], "gb2312", ["utf-8-sig", "latin-1"], rfl, by decide, by decide⟩

/-- C9: the summarizer signals the no-match notice exactly on an empty result
set; on a non-empty set it reports the record count, the number of distinct
stock codes, and the mean, maximum and minimum of the index values, each
rounded to two decimals for display. -/
theorem C9_summary (l : List Row) :
    (display_results l = none ↔ l = []) ∧
    (∀ s, display_results l = some s →
      s.count = l.length ∧
      s.companies = (l.filterMap Row.stock_code).toFinset.card ∧
      s.mean_fmt = round2 ((l.map Row.index_value).sum / (l.length : ℚ)) ∧
      (∃ r ∈ l, s.max_fmt = round2 r.index_value ∧
        ∀ r2 ∈ l, r2.index_value ≤ r.index_value) ∧
      (∃ r ∈ l, s.min_fmt = round2 r.index_value ∧
        ∀ r2 ∈ l, r.index_value ≤ r2.index_value)) := by
  constructor
  · unfold display_results
    cases l with
    | nil => simp
    | cons a rest => simp
  · intro s hs
    unfold display_results at hs
    cases l with
    | nil => simp at hs
    | cons a rest =>
      rw [if_neg (by simp)] at hs
      injection hs with hs
      subst hs
      refine ⟨rfl, ?_, ?_, ?_, ?_⟩
      · show nunique ((a :: rest).map Row.stock_code) =
          ((a :: rest).filterMap Row.stock_code).toFinset.card
        rw [nunique_eq_card, List.filterMap_map, Function.id_comp]
      · exact congrArg round2 (by simp [seriesMean, List.length_map])
      · obtain ⟨⟨r, hr, hre⟩, hub⟩ := seriesMax_row a rest
        refine ⟨r, ?_, congrArg round2 hre, ?_⟩
        · rcases hr with rfl | hmem
          · exact List.mem_cons_self _ _
          · exact List.mem_cons_of_mem a hmem
        · intro r2 hr2
          have h2 : r2.index_value ≤
              seriesMax ((a :: rest).map Row.index_value) := by
            apply hub
            rcases List.mem_cons.mp hr2 with rfl | hmem
            · exact Or.inl rfl
            · exact Or.inr hmem
          rw [hre] at h2
          exact h2
      · obtain ⟨⟨r, hr, hre⟩, hlb⟩ := seriesMin_row a rest
        refine ⟨r, ?_, congrArg round2 hre, ?_⟩
        · rcases hr with rfl | hmem
          · exact List.mem_cons_self _ _
          · exact List.mem_cons_of_mem a hmem
        · intro r2 hr2
          have h2 : seriesMin ((a :: rest).map Row.index_value) ≤
              r2.index_value := by
            apply hlb
            rcases List.mem_cons.mp hr2 with rfl | hmem
            · exact Or.inl rfl
            · exact Or.inr hmem
          rw [hre] at h2
          exact h2

/-- C9, witness at a one-row result set. -/
theorem C9_witness :
    ∃ s, display_results
      [(⟨some "600008", some "a", 2010, (1 : ℚ)⟩ : Row)] = some s ∧
      s.count = 1 :=
  ⟨_, rfl,
    ((C9_summary [(⟨some "600008", some "a", 2010, (1 : ℚ)⟩ : Row)]).2
      _ rfl).1⟩

end Daima
